import Mathlib

/-!
A verification development for the rivo/duplo near-duplicate image search
library. Go source files are shallowly embedded: float64 values whose uses
here are exact (comparisons, absolute values, additions, subtractions and
exact divisions) are modelled by rationals; values living in ℚ(√2) produced
by the Haar transform are modelled by pairs (a, b) denoting a + b·√2;
machine integers are modelled by ℕ with explicit wrap-around where Go's
uint8 arithmetic wraps; Go panics are modelled by Option results.
-/

namespace Duplo

/-- haar.Coef: the per-channel coefficients of one matrix position
(haar/haar.go). Variable length, one rational per colour channel. -/
abbrev Coef := List ℚ

/-- haar.ColourChannels (haar package): three colour channels. -/
def colourChannels : Nat := 3

/-- `math.Abs(coef[n])` — the absolute value of channel `n` of a
coefficient, the quantity QuickSelect in hash.go orders by. -/
def absCh (n : Nat) (c : Coef) : ℚ := |c.getD n 0|

/-- `pivot := math.Abs(coefs[randomIndex][n])` where
`randomIndex := rand.Intn(len(coefs))` (hash.go `coefThreshold`).  `pick`
models the random source: the index actually used is
`pick coefs % len coefs`, which ranges over exactly the values
`rand.Intn(len(coefs))` can return. -/
def pivotOf (pick : List Coef → Nat) (n : Nat) (coefs : List Coef) : ℚ :=
  absCh n (coefs.getD (pick coefs % coefs.length) [])

/-- `leftCoefs`: the coefficients with `math.Abs(coef[n]) > pivot`,
in their original order (hash.go `coefThreshold`). -/
def leftOf (n : Nat) (pivot : ℚ) (coefs : List Coef) : List Coef :=
  coefs.filter (fun d => pivot < absCh n d)

/-- `rightCoefs`: the coefficients with `math.Abs(coef[n]) < pivot`,
in their original order (hash.go `coefThreshold`). -/
def rightOf (n : Nat) (pivot : ℚ) (coefs : List Coef) : List Coef :=
  coefs.filter (fun d => absCh n d < pivot)

/-- hash.go `coefThreshold`, fuel-indexed.  `none` models the
`rand.Intn(0)` panic that Go raises when the recursion reaches an empty
slice.  The fuel only bounds the recursion depth; the wrapper below
supplies enough fuel that it is never exhausted before the empty-slice
check fires. -/
def coefThresholdFuel (pick : List Coef → Nat) (n : Nat) :
    Nat → List Coef → Nat → Option ℚ
  | 0, _, _ => none
  | _ + 1, [], _ => none
  | fuel + 1, c :: cs, k =>
      if k ≤ (leftOf n (pivotOf pick n (c :: cs)) (c :: cs)).length then
        coefThresholdFuel pick n fuel
          (leftOf n (pivotOf pick n (c :: cs)) (c :: cs)) k
      else if (c :: cs).length
          - (rightOf n (pivotOf pick n (c :: cs)) (c :: cs)).length < k then
        coefThresholdFuel pick n fuel
          (rightOf n (pivotOf pick n (c :: cs)) (c :: cs))
          (k - ((c :: cs).length
            - (rightOf n (pivotOf pick n (c :: cs)) (c :: cs)).length))
      else
        some (pivotOf pick n (c :: cs))

/-- hash.go `coefThreshold(coefs, k, n)`: randomized QuickSelect for the
k-th largest `|coefs[i][n]|`.  Each recursive call strictly shrinks the
slice, so `coefs.length + 1` fuel always suffices. -/
def coefThreshold (pick : List Coef → Nat) (coefs : List Coef)
    (k n : Nat) : Option ℚ :=
  coefThresholdFuel pick n (coefs.length + 1) coefs k

/-- Turn a list of options into an option of a list (`none` if any element
is `none`): used to chain the per-channel QuickSelect calls, any of which
may panic. -/
def optAll {α : Type} : List (Option α) → Option (List α)
  | [] => some []
  | none :: _ => none
  | some a :: rest => (optAll rest).map (a :: ·)

/-- hash.go `coefThresholds(coefs, k)` (current version): one threshold
per colour channel; `var thresholds haar.Coef` ranges over the three
channels of the fixed-size Coef array.  Empty input returns the zero
Coef `haar.Coef{}`. -/
def coefThresholds (pick : List Coef → Nat) (coefs : List Coef)
    (k : Nat) : Option Coef :=
  if coefs = [] then some (List.replicate colourChannels 0)
  else optAll (((List.range colourChannels).map
    (fun index => coefThreshold pick coefs k index)))

/-- The historical variable-channel `coefThresholds` (the version paired
with slice-valued haar.Coef): `make(haar.Coef, len(coefs[0]))` sizes the
result by the first coefficient's channel count. -/
def coefThresholdsVar (pick : List Coef → Nat) (coefs : List Coef)
    (k : Nat) : Option Coef :=
  match coefs with
  | [] => some []
  | c :: _ => optAll (((List.range c.length).map
      (fun index => coefThreshold pick coefs k index)))

/-- The k-th largest element of a list of rationals (1-indexed):
element k−1 of the list sorted into descending order. -/
def kthLargest (l : List ℚ) (k : Nat) : ℚ :=
  (l.insertionSort (· ≥ ·)).getD (k - 1) 0

/-- The k-th largest absolute value of channel `n` over all coefficient
positions: the order statistic `coefThreshold` is specified to compute. -/
def kthLargestAbs (coefs : List Coef) (n k : Nat) : ℚ :=
  kthLargest (coefs.map (absCh n)) k

/-- The 12-coefficient input of spec scenario S1 (channel 0, channel 1);
`mkRat 15 2 = 7.5`, `mkRat 47 10 = 4.7`, `mkRat 22 10 = 2.2`. -/
def s1Coefs : List Coef :=
  [[1, -5], [2, 2], [3, -(mkRat 15 2)], [4, 1], [5, 0], [6, 6],
   [7, -3], [8, -9], [9, mkRat 47 10], [10, mkRat 47 10], [11, 8],
   [12, -(mkRat 22 10)]]

/-! ### Order statistics: QuickSelect returns the k-th largest value -/

lemma count_filter_eq (p : ℚ → Bool) (a : ℚ) (l : List ℚ) :
    List.count a (l.filter p) = if p a then List.count a l else 0 := by
  split_ifs with h
  · exact List.count_filter h
  · refine List.count_eq_zero.mpr (fun hm => ?_)
    exact absurd ((List.mem_filter.mp hm).2) (by simp [h])

lemma perm_filter_trichotomy (q : ℚ) (l : List ℚ) :
    l.Perm (l.filter (fun x => q < x)
      ++ (l.filter (fun x => x = q) ++ l.filter (fun x => x < q))) := by
  rw [List.perm_iff_count]
  intro a
  simp only [List.count_append, count_filter_eq]
  rcases lt_trichotomy q a with h | h | h
  · have hne : a ≠ q := fun e => absurd (e ▸ h) (lt_irrefl _)
    simp [h, not_lt.mpr h.le, hne]
  · simp [h.symm, lt_irrefl]
  · simp [h, not_lt.mpr h.le, ne_of_lt h]

lemma sorted_ge_of_all_eq {q : ℚ} : ∀ {l : List ℚ},
    (∀ x ∈ l, x = q) → l.Sorted (· ≥ ·)
  | [], _ => List.sorted_nil
  | x :: xs, h => by
    refine List.Pairwise.cons (fun y hy => ?_) (sorted_ge_of_all_eq
      (fun y hy => h y (List.mem_cons_of_mem _ hy)))
    rw [h x (List.mem_cons_self _ _), h y (List.mem_cons_of_mem _ hy)]

/-- The descending sort of a list decomposes along any value `q` into the
descending sort of the part above `q`, the equal band, and the descending
sort of the part below `q`. -/
lemma insertionSort_ge_partition (q : ℚ) (l : List ℚ) :
    l.insertionSort (· ≥ ·) =
      (l.filter (fun x => q < x)).insertionSort (· ≥ ·)
        ++ (l.filter (fun x => x = q)
          ++ (l.filter (fun x => x < q)).insertionSort (· ≥ ·)) := by
  refine List.eq_of_perm_of_sorted ?_ (List.sorted_insertionSort _ l) ?_
  · refine (List.perm_insertionSort _ l).trans
      ((perm_filter_trichotomy q l).trans ?_)
    exact List.Perm.append ((List.perm_insertionSort _ _).symm)
      (List.Perm.append (List.Perm.refl _) ((List.perm_insertionSort _ _).symm))
  · show List.Pairwise _ _
    rw [List.pairwise_append, List.pairwise_append]
    refine ⟨List.sorted_insertionSort _ _,
      ⟨sorted_ge_of_all_eq (fun x hx => by
          simpa using (List.mem_filter.mp hx).2),
        List.sorted_insertionSort _ _, ?_⟩, ?_⟩
    · intro a ha b hb
      have ha' : a = q := by
        simpa using (List.mem_filter.mp ha).2
      have hb' : b < q := by
        simpa using (List.mem_filter.mp
          ((List.perm_insertionSort _ _).subset hb)).2
      exact le_of_lt (ha' ▸ hb')
    · intro a ha b hb
      have ha' : q < a := by
        simpa using (List.mem_filter.mp
          ((List.perm_insertionSort _ _).subset ha)).2
      rcases List.mem_append.mp hb with hb | hb
      · have hb' : b = q := by
          simpa using (List.mem_filter.mp hb).2
        exact le_of_lt (hb' ▸ ha')
      · have hb' : b < q := by
          simpa using (List.mem_filter.mp
            ((List.perm_insertionSort _ _).subset hb)).2
        exact le_of_lt (hb'.trans ha')

lemma length_filter_trichotomy (q : ℚ) (l : List ℚ) :
    (l.filter (fun x => q < x)).length
      + ((l.filter (fun x => x = q)).length
        + (l.filter (fun x => x < q)).length) = l.length := by
  have := (perm_filter_trichotomy q l).length_eq
  simpa using this.symm

/-- Branch 1 of QuickSelect: if `k` values lie strictly above `q`, the
k-th largest of the whole list is the k-th largest of those values. -/
lemma kthLargest_high (q : ℚ) (l : List ℚ) (k : Nat)
    (hk : k ≤ (l.filter (fun x => q < x)).length) (hk1 : 1 ≤ k) :
    kthLargest l k = kthLargest (l.filter (fun x => q < x)) k := by
  rw [kthLargest, insertionSort_ge_partition q l, List.getD_append]
  · rfl
  · rw [((List.perm_insertionSort _ _).length_eq)]
    omega

/-- Branch 3 of QuickSelect: if `k` falls inside the equal band of `q`,
the k-th largest is `q` itself. -/
lemma kthLargest_mid (q : ℚ) (l : List ℚ) (k : Nat)
    (hlo : (l.filter (fun x => q < x)).length < k)
    (hhi : k ≤ (l.filter (fun x => q < x)).length
      + (l.filter (fun x => x = q)).length) :
    kthLargest l k = q := by
  rw [kthLargest, insertionSort_ge_partition q l, List.getD_append_right,
    List.getD_append]
  · set i := k - 1 - ((l.filter (fun x => q < x)).insertionSort (· ≥ ·)).length
      with hi
    have hlen : ((l.filter (fun x => q < x)).insertionSort (· ≥ ·)).length
        = (l.filter (fun x => q < x)).length :=
      (List.perm_insertionSort _ _).length_eq
    have hilt : i < (l.filter (fun x => x = q)).length := by omega
    rw [List.getD_eq_getElem _ _ hilt]
    have := List.getElem_mem hilt
    simpa using (List.mem_filter.mp this).2
  · rw [(List.perm_insertionSort _ _).length_eq]
    omega
  · rw [(List.perm_insertionSort _ _).length_eq]
    omega

/-- Branch 2 of QuickSelect: if `k` lies beyond the values `≥ q`, the k-th
largest of the whole list is an order statistic of the part below `q`. -/
lemma kthLargest_low (q : ℚ) (l : List ℚ) (k : Nat)
    (hlo : (l.filter (fun x => q < x)).length
      + (l.filter (fun x => x = q)).length < k) :
    kthLargest l k = kthLargest (l.filter (fun x => x < q))
      (k - ((l.filter (fun x => q < x)).length
        + (l.filter (fun x => x = q)).length)) := by
  have hlen1 : ((l.filter (fun x => q < x)).insertionSort (· ≥ ·)).length
      = (l.filter (fun x => q < x)).length :=
    (List.perm_insertionSort _ _).length_eq
  rw [kthLargest, insertionSort_ge_partition q l, List.getD_append_right,
    List.getD_append_right]
  · rw [kthLargest]
    congr 1
    omega
  · omega
  · omega

lemma leftOf_map_absCh (n : Nat) (q : ℚ) (l : List Coef) :
    (leftOf n q l).map (absCh n) = (l.map (absCh n)).filter (fun x => q < x) := by
  rw [leftOf, List.filter_map]
  rfl

lemma rightOf_map_absCh (n : Nat) (q : ℚ) (l : List Coef) :
    (rightOf n q l).map (absCh n) = (l.map (absCh n)).filter (fun x => x < q) := by
  rw [rightOf, List.filter_map]
  rfl

lemma pivotOf_mem (pick : List Coef → Nat) (n : Nat) {l : List Coef}
    (h : l ≠ []) : pivotOf pick n l ∈ l.map (absCh n) := by
  have hpos : 0 < l.length := List.length_pos.mpr h
  have hlt : pick l % l.length < l.length := Nat.mod_lt _ hpos
  rw [pivotOf, List.getD_eq_getElem _ _ hlt]
  exact List.mem_map_of_mem _ (List.getElem_mem hlt)

lemma filter_gt_length_lt {q : ℚ} {v : List ℚ} (h : q ∈ v) :
    (v.filter (fun x => q < x)).length < v.length :=
  List.length_filter_lt_length_iff_exists.mpr ⟨q, h, by simp⟩

lemma filter_lt_length_lt {q : ℚ} {v : List ℚ} (h : q ∈ v) :
    (v.filter (fun x => x < q)).length < v.length :=
  List.length_filter_lt_length_iff_exists.mpr ⟨q, h, by simp⟩

/-- QuickSelect is correct: with enough fuel, for any random choices and
any `k` between 1 and the number of coefficients, `coefThreshold` computes
the k-th largest `|coefs[i][n]|` (all positions included). -/
theorem coefThresholdFuel_correct (pick : List Coef → Nat) (n : Nat) :
    ∀ fuel (coefs : List Coef) (k : Nat), coefs.length < fuel → 1 ≤ k →
    k ≤ coefs.length →
    coefThresholdFuel pick n fuel coefs k = some (kthLargestAbs coefs n k) := by
  intro fuel
  induction fuel with
  | zero => intro coefs k h1 _ _; omega
  | succ fuel ih =>
    intro coefs k hf hk1 hk2
    match coefs with
    | [] => simp at hk2; omega
    | c :: cs =>
      have hne : (c :: cs) ≠ ([] : List Coef) := by simp
      set l : List Coef := c :: cs with hl
      set q : ℚ := pivotOf pick n l with hq
      set v : List ℚ := l.map (absCh n) with hv
      have hqmem : q ∈ v := pivotOf_mem pick n hne
      have hvlen : v.length = l.length := List.length_map _ _
      have hLlen : (leftOf n q l).length
          = (v.filter (fun x => q < x)).length := by
        rw [← leftOf_map_absCh n q l, List.length_map]
      have hRlen : (rightOf n q l).length
          = (v.filter (fun x => x < q)).length := by
        rw [← rightOf_map_absCh n q l, List.length_map]
      have htri := length_filter_trichotomy q v
      have hLv := filter_gt_length_lt hqmem
      have hRv := filter_lt_length_lt hqmem
      rw [coefThresholdFuel]
      simp only [← hl, ← hq]
      split_ifs with h1 h2
      · rw [ih (leftOf n q l) k (by omega) hk1 h1]
        have : kthLargestAbs (leftOf n q l) n k
            = kthLargest (v.filter (fun x => q < x)) k := by
          rw [kthLargestAbs, leftOf_map_absCh, hv]
        rw [this, kthLargestAbs, ← hv,
          kthLargest_high q v k (by omega) hk1]
      · rw [ih (rightOf n q l) (k - (l.length - (rightOf n q l).length))
          (by omega) (by omega) (by omega)]
        have : kthLargestAbs (rightOf n q l) n
              (k - (l.length - (rightOf n q l).length))
            = kthLargest (v.filter (fun x => x < q))
              (k - ((v.filter (fun x => q < x)).length
                + (v.filter (fun x => x = q)).length)) := by
          rw [kthLargestAbs, rightOf_map_absCh, ← hv]
          congr 1
          omega
        rw [this, kthLargestAbs, ← hv,
          kthLargest_low q v k (by omega)]
      · rw [kthLargestAbs, ← hv, kthLargest_mid q v k (by omega) (by omega)]

/-- Wrapper-level QuickSelect correctness (hash.go `coefThreshold`). -/
theorem coefThreshold_correct (pick : List Coef → Nat) (coefs : List Coef)
    (k n : Nat) (hk1 : 1 ≤ k) (hk2 : k ≤ coefs.length) :
    coefThreshold pick coefs k n = some (kthLargestAbs coefs n k) :=
  coefThresholdFuel_correct pick n (coefs.length + 1) coefs k
    (by omega) hk1 hk2

lemma optAll_map_some {α β : Type} (f : α → β) :
    ∀ l : List α, optAll (l.map (fun a => some (f a))) = some (l.map f)
  | [] => rfl
  | a :: l => by
    rw [List.map_cons, optAll, optAll_map_some f l, Option.map_some',
      List.map_cons]

/-- hash.go `coefThresholds` computes, channel by channel, the k-th
largest absolute value (helper shared by the C1 and C5 results). -/
lemma coefThresholds_correct (pick : List Coef → Nat) (coefs : List Coef)
    (k : Nat) (hk1 : 1 ≤ k) (hk2 : k ≤ coefs.length) :
    coefThresholds pick coefs k
      = some ((List.range colourChannels).map
          (fun ch => kthLargestAbs coefs ch k)) := by
  have hne : coefs ≠ [] := by
    intro h
    rw [h] at hk2
    simp at hk2
    omega
  rw [coefThresholds, if_neg hne]
  rw [List.map_congr_left (fun ch _ => coefThreshold_correct pick coefs k ch hk1 hk2)]
  exact optAll_map_some _ _

/-- The historical variable-channel `coefThresholds` on the S1 input. -/
lemma coefThresholdsVar_s1 (pick : List Coef → Nat) :
    coefThresholdsVar pick s1Coefs 4 = some [9, 6] := by
  have h0 := coefThreshold_correct pick s1Coefs 4 0 (by norm_num) (by decide)
  have h1 := coefThreshold_correct pick s1Coefs 4 1 (by norm_num) (by decide)
  have hstep : coefThresholdsVar pick s1Coefs 4
      = optAll [coefThreshold pick s1Coefs 4 0,
          coefThreshold pick s1Coefs 4 1] := rfl
  rw [hstep, h0, h1]
  have h9 : kthLargestAbs s1Coefs 0 4 = 9 := by decide
  have h6 : kthLargestAbs s1Coefs 1 4 = 6 := by decide
  rw [h9, h6]
  rfl

/-- C1: for every non-empty coefficient list, channel and 1 ≤ k ≤ |cs|,
`coefThreshold(cs, k, ch)` returns the k-th largest `|cs[i][ch]|` over all
positions (position 0 included) for any outcome of the random pivot
choices; `coefThresholds(cs, k)[ch]` is that value for each channel; and
on the 12-element S1 input with k = 4 the (variable-channel) result is
`[9.0, 6.0]`. -/
theorem c1_quickselect_kth_largest :
    (∀ (pick : List Coef → Nat) (coefs : List Coef) (k n : Nat),
      1 ≤ k → k ≤ coefs.length →
      coefThreshold pick coefs k n = some (kthLargestAbs coefs n k))
    ∧ (∀ (pick : List Coef → Nat) (coefs : List Coef) (k : Nat),
      1 ≤ k → k ≤ coefs.length →
      coefThresholds pick coefs k
        = some ((List.range colourChannels).map
            (fun ch => kthLargestAbs coefs ch k)))
    ∧ (∀ pick : List Coef → Nat,
      coefThresholdsVar pick s1Coefs 4 = some [9, 6]) :=
  ⟨fun pick coefs k n hk1 hk2 => coefThreshold_correct pick coefs k n hk1 hk2,
    fun pick coefs k hk1 hk2 => coefThresholds_correct pick coefs k hk1 hk2,
    coefThresholdsVar_s1⟩

/-- Witness for C1 at the concrete S1 input with always-first pivots. -/
theorem c1_quickselect_kth_largest_witness :
    (1 ≤ 4 ∧ 4 ≤ s1Coefs.length)
      ∧ coefThreshold (fun _ => 0) s1Coefs 4 0 = some 9 := by
  refine ⟨⟨by norm_num, by decide⟩, ?_⟩
  rw [c1_quickselect_kth_largest.1 (fun _ => 0) s1Coefs 4 0 (by norm_num)
    (by decide)]
  decide

/-- haar.Transform clips a dimension above 2 to an even value
(`width &^ 1` clears the lowest bit). -/
def clipDim (w : Nat) : Nat := if 2 < w then 2 * (w / 2) else w

/-- The number of Haar coefficients CreateHash hands to `coefThresholds`:
the image is resized to ImageScale × ImageScale, and haar.Transform
returns a `clipDim ImageScale` square matrix of coefficients. -/
def numCoefs (imageScale : Nat) : Nat := clipDim imageScale * clipDim imageScale

/-- C5 counterexample: with configuration ImageScale = 1 and TopCoefs = 2
(both positive), the Haar matrix has a single coefficient and the
QuickSelect threshold selection inside CreateHash recurses onto an empty
slice, where Go's `rand.Intn(0)` panics (modelled by `none`): hash
construction is not total for every positive configuration. -/
theorem c5_counterexample :
    numCoefs 1 = 1 ∧ 0 < (2 : Nat)
      ∧ coefThresholds (fun _ => 0) [[0, 0, 0]] 2 = none := by
  refine ⟨by decide, by decide, by decide⟩

/-- C5 (amended): hash construction is total provided TopCoefs is between
1 and the number of Haar coefficients (with the default configuration,
40 ≤ 50·50): threshold selection then always returns a value. -/
theorem c5_coefThresholds_total :
    ∀ (pick : List Coef → Nat) (coefs : List Coef) (k : Nat),
      1 ≤ k → k ≤ coefs.length → (coefThresholds pick coefs k).isSome = true := by
  intro pick coefs k hk1 hk2
  rw [coefThresholds_correct pick coefs k hk1 hk2]
  rfl

/-- Witness for the amended C5 at the S1 input. -/
theorem c5_coefThresholds_total_witness :
    (coefThresholds (fun _ => 0) s1Coefs 4).isSome = true :=
  c5_coefThresholds_total (fun _ => 0) s1Coefs 4 (by norm_num) (by decide)

/-! ### The store (store.go): candidates, id map and inverted index -/

/-- candidate.go: the per-image record kept by the store. The opaque Go
`interface{}` id is modelled by a type parameter `α`. -/
structure Candidate (α : Type) where
  id : α
  scaleCoef : Coef
  ratio : ℚ
  dHash : Nat × Nat
  histogram : Nat
  histoMax : ℚ × ℚ × ℚ
  deriving DecidableEq

/-- The inverted index: `indices[sign][coefIndex][colourIndex]` is a
bucket of candidate slots (store.go `indices [][][][]int`). -/
abbrev Indices := List (List (List (List Nat)))

/-- Hash (hash.go): the fields of the visual hash used by the store. -/
structure Hash where
  coefs : List Coef
  width : Nat
  height : Nat
  thresholds : Coef
  ratio : ℚ
  dHash : Nat × Nat
  histogram : Nat
  histoMax : ℚ × ℚ × ℚ

/-- store.go `Store`: candidate list, id map (as the association list of
its entries), channel count, inverted index and the modified flag. -/
structure Store (α : Type) where
  candidates : List (Candidate α)
  ids : List (α × Nat)
  coefSize : Nat
  indices : Indices
  modified : Bool
  deriving DecidableEq

/-- Go map read `store.ids[id]`. -/
def lookupId {α : Type} [DecidableEq α] : List (α × Nat) → α → Option Nat
  | [], _ => none
  | (a, i) :: rest, id => if a = id then some i else lookupId rest id

/-- Update position `i` of a list in place, leaving the list unchanged
when `i` is out of range (Go code never indexes out of range here). -/
def updAt {β : Type} : List β → Nat → (β → β) → List β
  | [], _, _ => []
  | x :: xs, 0, f => f x :: xs
  | x :: xs, n + 1, f => x :: updAt xs n f

/-- In-place update of the bucket `indices[sg][p][ch]`. -/
def updBucket (ind : Indices) (sg p ch : Nat) (f : List Nat → List Nat) :
    Indices :=
  updAt ind sg (fun a => updAt a p (fun b => updAt b ch f))

/-- Read the bucket `indices[sg][p][ch]` (empty when out of range). -/
def bucketAt (ind : Indices) (sg p ch : Nat) : List Nat :=
  ((ind.getD sg []).getD p []).getD ch []

/-- store.go New(): 2 × (imageScale·imageScale) empty per-position index
slices (the colour dimension starts empty and grows on first Add). -/
def newIndices (numPositions : Nat) : Indices :=
  List.replicate 2 (List.replicate numPositions [])

/-- store.go `New()`. -/
def newStore (α : Type) (imageScale : Nat) : Store α :=
  { candidates := []
    ids := []
    coefSize := 0
    indices := newIndices (imageScale * imageScale)
    modified := false }

/-- The index-growing step of store.go Add: when the hash has more colour
channels than `coefSize`, append that many empty buckets to every
`indices[sign][coefIndex]`. -/
def growIndices (ind : Indices) (d : Nat) : Indices :=
  ind.map (fun a => a.map (fun b => b ++ List.replicate d []))

/-- `sign := 0; if colourCoef < 0 { sign = 1 }` (store.go Add/Query). -/
def signOf (v : ℚ) : Nat := if v < 0 then 1 else 0

/-- The inner loop of store.go Add: walk the channels of one coefficient
(channel counter `ch`), skip channels below the threshold, and append the
new candidate slot to the bucket of the signed coefficient. -/
def distributeChannels (thr : Coef) (idx p : Nat) :
    List ℚ → Nat → Indices → Indices
  | [], _, ind => ind
  | v :: vs, ch, ind =>
      distributeChannels thr idx p vs (ch + 1)
        (if |v| < thr.getD ch 0 then ind
         else updBucket ind (signOf v) p ch (fun b => b ++ [idx]))

/-- The outer loop of store.go Add: walk the coefficients (position
counter `p`), skipping position 0 (the scaling-function/DC coefficient). -/
def distributeCoefs (thr : Coef) (idx : Nat) :
    List Coef → Nat → Indices → Indices
  | [], _, ind => ind
  | c :: cs, p, ind =>
      distributeCoefs thr idx cs (p + 1)
        (if p = 0 then ind else distributeChannels thr idx p c 0 ind)

/-- store.go `Add(id, hash)`: no-op if the id is present; otherwise grow
the index to the hash's channel count, append a candidate carrying
{id, coefs[0], ratio, dHash, histogram, histoMax}, record the id and
distribute the significant coefficients into the buckets.  (Go reads
`hash.Coefs[0]`, which panics on an empty matrix; CreateHash always
produces at least one coefficient, and the empty default below is only
taken in that unreachable case.) -/
def addStore {α : Type} [DecidableEq α] (s : Store α) (id : α) (h : Hash) :
    Store α :=
  if (lookupId s.ids id).isSome then s
  else
    let ind0 := if s.coefSize < h.thresholds.length then
        growIndices s.indices (h.thresholds.length - s.coefSize)
      else s.indices
    let index := s.candidates.length
    { candidates := s.candidates
        ++ [{ id := id, scaleCoef := h.coefs.headD [], ratio := h.ratio,
              dHash := h.dHash, histogram := h.histogram,
              histoMax := h.histoMax }]
      ids := s.ids ++ [(id, index)]
      coefSize := h.thresholds.length
      indices := distributeCoefs h.thresholds index h.coefs 0 ind0
      modified := true }

/-! ### Shape and update lemmas for the inverted index -/

lemma updAt_length {β : Type} : ∀ (l : List β) (i : Nat) (f : β → β),
    (updAt l i f).length = l.length
  | [], _, _ => rfl
  | _ :: _, 0, _ => rfl
  | _ :: xs, n + 1, f => by simp [updAt, updAt_length xs n f]

lemma getD_updAt_eq {β : Type} :
    ∀ (l : List β) (i : Nat) (f : β → β) (d : β), i < l.length →
    (updAt l i f).getD i d = f (l.getD i d)
  | _ :: _, 0, _, _, _ => rfl
  | _ :: xs, n + 1, f, d, h => by
    simpa [updAt] using getD_updAt_eq xs n f d (by simpa using h)

lemma getD_updAt_ne {β : Type} :
    ∀ (l : List β) (i j : Nat) (f : β → β) (d : β), j ≠ i →
    (updAt l i f).getD j d = l.getD j d
  | [], _, _, _, _, _ => rfl
  | _ :: _, 0, 0, _, _, h => absurd rfl h
  | _ :: _, 0, _ + 1, _, _, _ => rfl
  | _ :: _, _ + 1, 0, _, _, _ => rfl
  | _ :: xs, n + 1, j + 1, f, d, h => by
    simpa [updAt] using getD_updAt_ne xs n j f d (fun e => h (by omega))

lemma updAt_oob {β : Type} :
    ∀ (l : List β) (i : Nat) (f : β → β), l.length ≤ i → updAt l i f = l
  | [], _, _, _ => rfl
  | _ :: _, 0, _, h => by simp at h
  | _ :: xs, n + 1, f, h => by
    simp only [updAt, List.cons.injEq, true_and]
    exact updAt_oob xs n f (by simpa using h)

lemma mem_updAt {β : Type} :
    ∀ {l : List β} {i : Nat} {f : β → β} {x : β}, x ∈ updAt l i f →
    x ∈ l ∨ ∃ y ∈ l, x = f y := by
  intro l
  induction l with
  | nil => intro i f x h; exact absurd h (by simp [updAt])
  | cons a as ih =>
    intro i f x h
    match i with
    | 0 =>
      rcases List.mem_cons.mp h with h | h
      · exact Or.inr ⟨a, List.mem_cons_self _ _, h⟩
      · exact Or.inl (List.mem_cons_of_mem _ h)
    | n + 1 =>
      rcases List.mem_cons.mp h with h | h
      · exact Or.inl (h ▸ List.mem_cons_self _ _)
      · rcases ih h with h | ⟨y, hy, hxy⟩
        · exact Or.inl (List.mem_cons_of_mem _ h)
        · exact Or.inr ⟨y, List.mem_cons_of_mem _ hy, hxy⟩

/-- Shape well-formedness of the inverted index: 2 signs, `n` coefficient
positions, `m` colour channels. -/
def indWF (ind : Indices) (n m : Nat) : Prop :=
  ind.length = 2 ∧ ∀ a ∈ ind, a.length = n ∧ ∀ b ∈ a, b.length = m

lemma indWF_updBucket {ind : Indices} {n m : Nat} (h : indWF ind n m)
    (sg p ch : Nat) (f : List Nat → List Nat) :
    indWF (updBucket ind sg p ch f) n m := by
  obtain ⟨h2, hmem⟩ := h
  refine ⟨by rw [updBucket, updAt_length]; exact h2, ?_⟩
  intro a ha
  rcases mem_updAt ha with ha | ⟨y, hy, rfl⟩
  · exact hmem a ha
  · obtain ⟨hylen, hyb⟩ := hmem y hy
    refine ⟨by rw [updAt_length]; exact hylen, ?_⟩
    intro b hb
    rcases mem_updAt hb with hb | ⟨z, hz, rfl⟩
    · exact hyb b hb
    · rw [updAt_length]
      exact hyb z hz

lemma indWF_growIndices {ind : Indices} {n m : Nat} (h : indWF ind n m)
    (d : Nat) : indWF (growIndices ind d) n (m + d) := by
  obtain ⟨h2, hmem⟩ := h
  refine ⟨by simpa [growIndices] using h2, ?_⟩
  intro a ha
  rw [growIndices, List.mem_map] at ha
  obtain ⟨y, hy, rfl⟩ := ha
  obtain ⟨hylen, hyb⟩ := hmem y hy
  refine ⟨by simpa using hylen, ?_⟩
  intro b hb
  rw [List.mem_map] at hb
  obtain ⟨z, hz, rfl⟩ := hb
  simp [hyb z hz]

lemma indWF_newIndices (numPositions : Nat) :
    indWF (newIndices numPositions) numPositions 0 := by
  refine ⟨by simp [newIndices], ?_⟩
  intro a ha
  rw [newIndices, List.mem_replicate] at ha
  rw [ha.2]
  refine ⟨by simp, ?_⟩
  intro b hb
  rw [List.mem_replicate] at hb
  simp [hb.2]

lemma getD_replicate_self {β : Type} (d : β) (k j : Nat) :
    (List.replicate k d).getD j d = d := by
  by_cases h : j < k
  · rw [List.getD_eq_getElem _ _ (by simpa using h), List.getElem_replicate]
  · rw [List.getD_eq_default]
    simpa using h

lemma bucketAt_growIndices (ind : Indices) (d : Nat) (sg q c : Nat) :
    bucketAt (growIndices ind d) sg q c = bucketAt ind sg q c := by
  simp only [bucketAt, growIndices, List.getD_eq_getElem?_getD,
    List.getElem?_map]
  cases hsg : ind[sg]? with
  | none => simp
  | some a =>
    simp only [Option.map_some', Option.getD_some, List.getElem?_map]
    cases hq : a[q]? with
    | none => simp
    | some b =>
      simp only [Option.map_some', Option.getD_some]
      by_cases hc : c < b.length
      · rw [List.getElem?_append]
        simp [hc]
      · rw [List.getElem?_append_right (by omega), List.getElem?_replicate]
        have hb : b[c]?.getD [] = [] := by
          rw [← List.getD_eq_getElem?_getD, List.getD_eq_default]
          omega
        rw [hb]
        split_ifs <;> rfl

lemma bucketAt_newIndices (numPositions sg q c : Nat) :
    bucketAt (newIndices numPositions) sg q c = [] := by
  simp only [bucketAt, newIndices, List.getD_eq_getElem?_getD,
    List.getElem?_replicate]
  split_ifs <;> simp [List.getElem?_replicate] <;> split_ifs <;> simp

lemma getD_mem_of_lt {β : Type} {l : List β} {i : Nat} (d : β)
    (h : i < l.length) : l.getD i d ∈ l := by
  rw [List.getD_eq_getElem _ _ h]
  exact List.getElem_mem h

lemma signOf_lt_two (v : ℚ) : signOf v < 2 := by
  rw [signOf]
  split_ifs <;> omega

lemma bucketAt_updBucket_eq {ind : Indices} {sg p ch : Nat}
    (f : List Nat → List Nat) (h1 : sg < ind.length)
    (h2 : p < (ind.getD sg []).length)
    (h3 : ch < ((ind.getD sg []).getD p []).length) :
    bucketAt (updBucket ind sg p ch f) sg p ch = f (bucketAt ind sg p ch) := by
  rw [bucketAt, updBucket, getD_updAt_eq _ _ _ _ h1,
    getD_updAt_eq _ _ _ _ h2, getD_updAt_eq _ _ _ _ h3, bucketAt]

lemma bucketAt_updBucket_oob_ch {ind : Indices} {sg p ch : Nat}
    (f : List Nat → List Nat)
    (h3 : ((ind.getD sg []).getD p []).length ≤ ch) :
    bucketAt (updBucket ind sg p ch f) sg p ch = bucketAt ind sg p ch := by
  by_cases h1 : sg < ind.length
  · rw [bucketAt, updBucket, getD_updAt_eq _ _ _ _ h1]
    by_cases h2 : p < (ind.getD sg []).length
    · rw [getD_updAt_eq _ _ _ _ h2, updAt_oob _ _ _ h3, bucketAt]
    · rw [updAt_oob _ _ _ (by omega), bucketAt]
  · rw [updBucket, updAt_oob _ _ _ (by omega)]

lemma bucketAt_updBucket_ne {ind : Indices} {sg p ch sg' q c : Nat}
    (f : List Nat → List Nat) (h : ¬(sg' = sg ∧ q = p ∧ c = ch)) :
    bucketAt (updBucket ind sg p ch f) sg' q c = bucketAt ind sg' q c := by
  by_cases hsg : sg' = sg
  · subst hsg
    by_cases hin : sg' < ind.length
    · rw [bucketAt, updBucket, getD_updAt_eq _ _ _ _ hin]
      by_cases hq : q = p
      · subst hq
        by_cases hp : q < (ind.getD sg' []).length
        · rw [getD_updAt_eq _ _ _ _ hp]
          have hc : c ≠ ch := by tauto
          rw [getD_updAt_ne _ _ _ _ _ hc, bucketAt]
        · rw [updAt_oob _ _ _ (by omega), bucketAt]
      · rw [getD_updAt_ne _ _ _ _ _ hq, bucketAt]
    · rw [updBucket, updAt_oob _ _ _ (by omega)]
  · rw [bucketAt, updBucket, getD_updAt_ne _ _ _ _ _ hsg, bucketAt]

/-- One channel step of store.go Add, seen through `bucketAt`. -/
lemma bucketAt_distChan_head {ind : Indices} {n m : Nat} {p : Nat}
    (hwf : indWF ind n m) (hp : p < n) (thr : Coef) (idx : Nat) (v : ℚ)
    (ch0 sg q c : Nat) :
    bucketAt (if |v| < thr.getD ch0 0 then ind
        else updBucket ind (signOf v) p ch0 (fun b => b ++ [idx])) sg q c
      = bucketAt ind sg q c ++
        (if q = p ∧ c = ch0 ∧ c < m ∧ sg = signOf v
            ∧ ¬(|v| < thr.getD ch0 0) then [idx] else []) := by
  by_cases hskip : |v| < thr.getD ch0 0
  · rw [if_pos hskip, if_neg (by tauto), List.append_nil]
  · rw [if_neg hskip]
    by_cases hhit : sg = signOf v ∧ q = p ∧ c = ch0
    · obtain ⟨hsg, hq, hc⟩ := hhit
      subst hsg
      subst hq
      subst hc
      have h1 : signOf v < ind.length := by
        rw [hwf.1]
        exact signOf_lt_two v
      have h2 : q < (ind.getD (signOf v) []).length := by
        rw [(hwf.2 _ (getD_mem_of_lt _ h1)).1]
        exact hp
      have hblen : ((ind.getD (signOf v) []).getD q []).length = m :=
        (hwf.2 _ (getD_mem_of_lt _ h1)).2 _ (getD_mem_of_lt _ h2)
      by_cases hcm : c < m
      · rw [if_pos ⟨rfl, rfl, hcm, rfl, hskip⟩]
        exact bucketAt_updBucket_eq _ h1 h2 (by omega)
      · rw [if_neg (by tauto), List.append_nil]
        exact bucketAt_updBucket_oob_ch _ (by omega)
    · rw [if_neg (by tauto), List.append_nil]
      exact bucketAt_updBucket_ne _ (by tauto)

/-- The channel loop of store.go Add, seen through `bucketAt`: starting
at channel counter `ch0`, the only bucket that changes is the one at the
signed significant channel, which gets the new slot appended. -/
lemma bucketAt_distributeChannels {n m : Nat} (thr : Coef) (idx p : Nat)
    (hp : p < n) :
    ∀ (vs : List ℚ) (ch0 : Nat) (ind : Indices), indWF ind n m →
    ∀ sg q c, bucketAt (distributeChannels thr idx p vs ch0 ind) sg q c =
      bucketAt ind sg q c ++
        (if q = p ∧ ch0 ≤ c ∧ c - ch0 < vs.length ∧ c < m
            ∧ sg = signOf (vs.getD (c - ch0) 0)
            ∧ ¬(|vs.getD (c - ch0) 0| < thr.getD c 0)
          then [idx] else [])
  | [], ch0, ind, _, sg, q, c => by
    rw [distributeChannels, if_neg (by rintro ⟨-, -, h, -⟩; simp at h),
      List.append_nil]
  | v :: vs, ch0, ind, hwf, sg, q, c => by
    rw [distributeChannels]
    have hwf' : indWF (if |v| < thr.getD ch0 0 then ind
        else updBucket ind (signOf v) p ch0 (fun b => b ++ [idx])) n m := by
      split_ifs
      · exact hwf
      · exact indWF_updBucket hwf _ _ _ _
    rw [bucketAt_distributeChannels thr idx p hp vs (ch0 + 1) _ hwf' sg q c,
      bucketAt_distChan_head hwf hp thr idx v ch0 sg q c, List.append_assoc]
    congr 1
    by_cases hc : c = ch0
    · have ht : (if q = p ∧ ch0 + 1 ≤ c ∧ c - (ch0 + 1) < vs.length ∧ c < m
            ∧ sg = signOf (vs.getD (c - (ch0 + 1)) 0)
            ∧ ¬(|vs.getD (c - (ch0 + 1)) 0| < thr.getD c 0)
          then [idx] else ([] : List Nat)) = [] :=
        if_neg (by rintro ⟨-, h, -⟩; omega)
      rw [ht, List.append_nil]
      refine if_congr ?_ rfl rfl
      rw [hc, Nat.sub_self, List.getD_cons_zero]
      constructor
      · rintro ⟨hq, -, hcm, hsg, hsig⟩
        exact ⟨hq, le_refl _, by simp, hcm, hsg, hsig⟩
      · rintro ⟨hq, -, -, hcm, hsg, hsig⟩
        exact ⟨hq, rfl, hcm, hsg, hsig⟩
    · have hh : (if q = p ∧ c = ch0 ∧ c < m ∧ sg = signOf v
            ∧ ¬(|v| < thr.getD ch0 0) then [idx] else ([] : List Nat)) = [] :=
        if_neg (by rintro ⟨-, h, -⟩; exact hc h)
      rw [hh, List.nil_append]
      by_cases hle : ch0 + 1 ≤ c
      · have hshift : (v :: vs).getD (c - ch0) 0
            = vs.getD (c - (ch0 + 1)) 0 := by
          have he : c - ch0 = (c - (ch0 + 1)) + 1 := by omega
          rw [he, List.getD_cons_succ]
        refine if_congr ?_ rfl rfl
        rw [hshift, List.length_cons]
        constructor
        · rintro ⟨hq, -, hlen, hcm, hsg, hsig⟩
          exact ⟨hq, by omega, by omega, hcm, hsg, hsig⟩
        · rintro ⟨hq, -, hlen, hcm, hsg, hsig⟩
          exact ⟨hq, by omega, by omega, hcm, hsg, hsig⟩
      · have ht : (if q = p ∧ ch0 + 1 ≤ c ∧ c - (ch0 + 1) < vs.length ∧ c < m
              ∧ sg = signOf (vs.getD (c - (ch0 + 1)) 0)
              ∧ ¬(|vs.getD (c - (ch0 + 1)) 0| < thr.getD c 0)
            then [idx] else ([] : List Nat)) = [] :=
          if_neg (by rintro ⟨-, h, -⟩; omega)
        have hf : (if q = p ∧ ch0 ≤ c ∧ c - ch0 < (v :: vs).length ∧ c < m
              ∧ sg = signOf ((v :: vs).getD (c - ch0) 0)
              ∧ ¬(|(v :: vs).getD (c - ch0) 0| < thr.getD c 0)
            then [idx] else ([] : List Nat)) = [] :=
          if_neg (by rintro ⟨-, h, -⟩; exact hc (by omega))
        rw [ht, hf]

lemma indWF_distributeChannels {n m : Nat} (thr : Coef) (idx p : Nat) :
    ∀ (vs : List ℚ) (ch0 : Nat) (ind : Indices), indWF ind n m →
    indWF (distributeChannels thr idx p vs ch0 ind) n m
  | [], _, _, hwf => hwf
  | v :: vs, ch0, ind, hwf => by
    rw [distributeChannels]
    refine indWF_distributeChannels thr idx p vs (ch0 + 1) _ ?_
    split_ifs
    · exact hwf
    · exact indWF_updBucket hwf _ _ _ _

lemma indWF_distributeCoefs {n m : Nat} (thr : Coef) (idx : Nat) :
    ∀ (cs : List Coef) (p0 : Nat) (ind : Indices), indWF ind n m →
    indWF (distributeCoefs thr idx cs p0 ind) n m
  | [], _, _, hwf => hwf
  | c0 :: cs, p0, ind, hwf => by
    rw [distributeCoefs]
    refine indWF_distributeCoefs thr idx cs (p0 + 1) _ ?_
    split_ifs
    · exact hwf
    · exact indWF_distributeChannels thr idx p0 c0 0 ind hwf

/-- The coefficient loop of store.go Add, seen through `bucketAt`:
starting at position counter `p0`, the bucket at `(sg, q, c)` gains the
new slot exactly when `q` is a nonzero in-range position whose channel
`c` is significant with sign `sg`; every other bucket is unchanged. -/
lemma bucketAt_distributeCoefs {n m : Nat} (thr : Coef) (idx : Nat) :
    ∀ (cs : List Coef) (p0 : Nat) (ind : Indices), indWF ind n m →
    p0 + cs.length ≤ n →
    ∀ sg q c, bucketAt (distributeCoefs thr idx cs p0 ind) sg q c =
      bucketAt ind sg q c ++
        (if q ≠ 0 ∧ p0 ≤ q ∧ q - p0 < cs.length
            ∧ c < (cs.getD (q - p0) []).length ∧ c < m
            ∧ sg = signOf ((cs.getD (q - p0) []).getD c 0)
            ∧ ¬(|(cs.getD (q - p0) []).getD c 0| < thr.getD c 0)
          then [idx] else [])
  | [], p0, ind, _, _, sg, q, c => by
    rw [distributeCoefs, if_neg (by rintro ⟨-, -, h, -⟩; simp at h),
      List.append_nil]
  | c0 :: cs, p0, ind, hwf, hn, sg, q, c => by
    rw [distributeCoefs]
    have hwf' : indWF (if p0 = 0 then ind
        else distributeChannels thr idx p0 c0 0 ind) n m := by
      split_ifs
      · exact hwf
      · exact indWF_distributeChannels thr idx p0 c0 0 ind hwf
    rw [bucketAt_distributeCoefs thr idx cs (p0 + 1) _ hwf'
      (by simp only [List.length_cons] at hn; omega) sg q c]
    have hhead : bucketAt (if p0 = 0 then ind
          else distributeChannels thr idx p0 c0 0 ind) sg q c
        = bucketAt ind sg q c ++
          (if q = p0 ∧ p0 ≠ 0 ∧ c < c0.length ∧ c < m
              ∧ sg = signOf (c0.getD c 0)
              ∧ ¬(|c0.getD c 0| < thr.getD c 0)
            then [idx] else []) := by
      by_cases hp0 : p0 = 0
      · rw [if_pos hp0, if_neg (by rintro ⟨-, h, -⟩; exact h hp0),
          List.append_nil]
      · rw [if_neg hp0,
          bucketAt_distributeChannels thr idx p0
            (by simp only [List.length_cons] at hn; omega) c0 0 ind hwf
            sg q c]
        refine congrArg _ (if_congr ?_ rfl rfl)
        rw [Nat.sub_zero]
        constructor
        · rintro ⟨hq, -, hlen, hcm, hsg, hsig⟩
          exact ⟨hq, hp0, hlen, hcm, hsg, hsig⟩
        · rintro ⟨hq, -, hlen, hcm, hsg, hsig⟩
          exact ⟨hq, Nat.zero_le c, hlen, hcm, hsg, hsig⟩
    rw [hhead, List.append_assoc]
    congr 1
    by_cases hq : q = p0
    · have ht : (if q ≠ 0 ∧ p0 + 1 ≤ q ∧ q - (p0 + 1) < cs.length
            ∧ c < (cs.getD (q - (p0 + 1)) []).length ∧ c < m
            ∧ sg = signOf ((cs.getD (q - (p0 + 1)) []).getD c 0)
            ∧ ¬(|(cs.getD (q - (p0 + 1)) []).getD c 0| < thr.getD c 0)
          then [idx] else ([] : List Nat)) = [] :=
        if_neg (by rintro ⟨-, h, -⟩; omega)
      rw [ht, List.append_nil]
      refine if_congr ?_ rfl rfl
      rw [hq, Nat.sub_self, List.getD_cons_zero]
      constructor
      · rintro ⟨hq', hp0, hlen, hcm, hsg, hsig⟩
        exact ⟨fun e => hp0 (by omega), le_refl _, by simp, hlen, hcm,
          hsg, hsig⟩
      · rintro ⟨hq', -, -, hlen, hcm, hsg, hsig⟩
        exact ⟨rfl, fun e => hq' (by omega), hlen, hcm, hsg, hsig⟩
    · have hh : (if q = p0 ∧ p0 ≠ 0 ∧ c < c0.length ∧ c < m
            ∧ sg = signOf (c0.getD c 0)
            ∧ ¬(|c0.getD c 0| < thr.getD c 0)
          then [idx] else ([] : List Nat)) = [] :=
        if_neg (by rintro ⟨h, -⟩; exact hq h)
      rw [hh, List.nil_append]
      by_cases hle : p0 + 1 ≤ q
      · have hshift : (c0 :: cs).getD (q - p0) []
            = cs.getD (q - (p0 + 1)) [] := by
          have he : q - p0 = (q - (p0 + 1)) + 1 := by omega
          rw [he, List.getD_cons_succ]
        refine if_congr ?_ rfl rfl
        rw [hshift, List.length_cons]
        constructor
        · rintro ⟨hq0, -, hlen, hcm, hm2, hsg, hsig⟩
          exact ⟨hq0, by omega, by omega, hcm, hm2, hsg, hsig⟩
        · rintro ⟨hq0, -, hlen, hcm, hm2, hsg, hsig⟩
          exact ⟨hq0, by omega, by omega, hcm, hm2, hsg, hsig⟩
      · have ht : (if q ≠ 0 ∧ p0 + 1 ≤ q ∧ q - (p0 + 1) < cs.length
              ∧ c < (cs.getD (q - (p0 + 1)) []).length ∧ c < m
              ∧ sg = signOf ((cs.getD (q - (p0 + 1)) []).getD c 0)
              ∧ ¬(|(cs.getD (q - (p0 + 1)) []).getD c 0| < thr.getD c 0)
            then [idx] else ([] : List Nat)) = [] :=
          if_neg (by rintro ⟨-, h, -⟩; omega)
        have hf : (if q ≠ 0 ∧ p0 ≤ q ∧ q - p0 < (c0 :: cs).length
              ∧ c < ((c0 :: cs).getD (q - p0) []).length ∧ c < m
              ∧ sg = signOf (((c0 :: cs).getD (q - p0) []).getD c 0)
              ∧ ¬(|((c0 :: cs).getD (q - p0) []).getD c 0| < thr.getD c 0)
            then [idx] else ([] : List Nat)) = [] :=
          if_neg (by rintro ⟨-, h, -⟩; exact hq (by omega))
        rw [ht, hf]

/-- `hash.Coefs[p][c]` — the channel-`c` value of the coefficient at
position `p`. -/
def coefAt (h : Hash) (p c : Nat) : ℚ := (h.coefs.getD p []).getD c 0

/-- C2: after Add inserts a fresh id as slot `i = |candidates|`, a bucket
`(sign, p, ch)` with `sign = signOf(coefs[p][ch])` contains `i` iff
`|coefs[p][ch]| ≥ thresholds[ch]` (p ≥ 1); position-0 buckets are
untouched; and every bucket other than the signed significant ones is
unchanged.  Hypotheses: the id is fresh, the index has the well-formed
`2 × n × coefSize` shape with room for every coefficient position, every
coefficient has at most as many channels as the threshold vector (in Go
both are always exactly 3), and buckets only reference existing slots. -/
theorem c2_add_bucket_membership {α : Type} [DecidableEq α]
    (s : Store α) (id : α) (h : Hash) {n : Nat}
    (hfresh : lookupId s.ids id = none)
    (hwf : indWF s.indices n s.coefSize)
    (hcs : h.coefs.length ≤ n)
    (hch : ∀ co ∈ h.coefs, co.length ≤ h.thresholds.length)
    (hclean : ∀ sg q c j, j ∈ bucketAt s.indices sg q c →
      j < s.candidates.length) :
    (∀ p c, 1 ≤ p → p < h.coefs.length → c < (h.coefs.getD p []).length →
      (s.candidates.length ∈
          bucketAt (addStore s id h).indices (signOf (coefAt h p c)) p c
        ↔ h.thresholds.getD c 0 ≤ |coefAt h p c|))
    ∧ (∀ sg c, bucketAt (addStore s id h).indices sg 0 c
        = bucketAt s.indices sg 0 c)
    ∧ (∀ sg q c, ¬(1 ≤ q ∧ q < h.coefs.length
          ∧ c < (h.coefs.getD q []).length
          ∧ sg = signOf (coefAt h q c)
          ∧ h.thresholds.getD c 0 ≤ |coefAt h q c|) →
        bucketAt (addStore s id h).indices sg q c = bucketAt s.indices sg q c) := by
  have hs' : (addStore s id h).indices
      = distributeCoefs h.thresholds s.candidates.length h.coefs 0
          (if s.coefSize < h.thresholds.length then
            growIndices s.indices (h.thresholds.length - s.coefSize)
          else s.indices) := by
    rw [addStore, if_neg (by rw [hfresh]; simp)]
  have hwf0 : indWF (if s.coefSize < h.thresholds.length then
        growIndices s.indices (h.thresholds.length - s.coefSize)
      else s.indices) n (max s.coefSize h.thresholds.length) := by
    split_ifs with hg
    · have := indWF_growIndices hwf (h.thresholds.length - s.coefSize)
      have he : s.coefSize + (h.thresholds.length - s.coefSize)
          = max s.coefSize h.thresholds.length := by omega
      rwa [he] at this
    · have he : s.coefSize = max s.coefSize h.thresholds.length := by omega
      rwa [← he]
  have hb0 : ∀ sg q c, bucketAt (if s.coefSize < h.thresholds.length then
        growIndices s.indices (h.thresholds.length - s.coefSize)
      else s.indices) sg q c = bucketAt s.indices sg q c := by
    intro sg q c
    split_ifs
    · exact bucketAt_growIndices _ _ _ _ _
    · rfl
  have hbuck : ∀ sg q c, bucketAt (addStore s id h).indices sg q c
      = bucketAt s.indices sg q c ++
        (if q ≠ 0 ∧ 0 ≤ q ∧ q - 0 < h.coefs.length
            ∧ c < (h.coefs.getD (q - 0) []).length
            ∧ c < max s.coefSize h.thresholds.length
            ∧ sg = signOf ((h.coefs.getD (q - 0) []).getD c 0)
            ∧ ¬(|(h.coefs.getD (q - 0) []).getD c 0|
                < h.thresholds.getD c 0)
          then [s.candidates.length] else []) := by
    intro sg q c
    rw [hs', bucketAt_distributeCoefs h.thresholds s.candidates.length
      h.coefs 0 _ hwf0 (by omega) sg q c, hb0]
  refine ⟨?_, ?_, ?_⟩
  · intro p c hp1 hp2 hc
    have hcm : c < max s.coefSize h.thresholds.length := by
      have := hch _ (getD_mem_of_lt [] hp2)
      omega
    rw [hbuck]
    by_cases hsig : h.thresholds.getD c 0 ≤ |coefAt h p c|
    · rw [if_pos ⟨by omega, by omega, by simpa using hp2,
        by simpa using hc, hcm, by rw [Nat.sub_zero]; rfl,
        by rw [Nat.sub_zero]; exact not_lt.mpr hsig⟩]
      refine ⟨fun _ => hsig, fun _ => ?_⟩
      exact List.mem_append_right _ (by simp)
    · rw [if_neg (by
        rintro ⟨-, -, -, -, -, -, hno⟩
        rw [Nat.sub_zero] at hno
        exact hno (not_le.mp hsig))]
      rw [List.append_nil]
      constructor
      · intro hmem
        exact absurd rfl (Nat.ne_of_lt (hclean _ _ _ _ hmem)).symm
      · intro hmem
        exact absurd hmem hsig
  · intro sg c
    rw [hbuck, if_neg (by rintro ⟨hq, -⟩; exact hq rfl), List.append_nil]
  · intro sg q c hno
    rw [hbuck, if_neg ?_, List.append_nil]
    rintro ⟨hq0, -, hqlen, hclen, -, hsg, hsig⟩
    rw [Nat.sub_zero] at hqlen hclen hsg hsig
    exact hno ⟨by omega, hqlen, hclen, hsg, not_lt.mp hsig⟩

/-- A small fresh store over 4 coefficient positions, for witnesses. -/
def wStore : Store Nat :=
  { candidates := [], ids := [], coefSize := 0, indices := newIndices 4,
    modified := false }

/-- A small two-position hash, for witnesses. -/
def wHash : Hash :=
  { coefs := [[1, 2, 3], [4, -5, 0]], width := 2, height := 2,
    thresholds := [2, 2, 2], ratio := 1, dHash := (0, 0), histogram := 0,
    histoMax := (0, 0, 0) }

/-- Witness for C2: inserting a fresh id into an empty 4-position store,
the slot 0 lands in the bucket of the negative significant coefficient at
position 1, channel 1. -/
theorem c2_add_bucket_membership_witness :
    (0 : Nat) ∈ bucketAt (addStore wStore 7 wHash).indices 1 1 1 := by
  refine ((c2_add_bucket_membership wStore 7 wHash rfl (indWF_newIndices 4)
    (by decide) (by decide) ?_).1 1 1 (by decide) (by decide)
      (by decide)).mpr (by decide)
  intro sg q c j hj
  rw [show wStore.indices = newIndices 4 from rfl, bucketAt_newIndices] at hj
  exact absurd hj (List.not_mem_nil j)

/-- C10: Add of an id already in the store returns before touching any
field: the whole store — candidates, id map, buckets, coefSize and the
modified flag — is unchanged, and no error is reported (Add returns
nothing). -/
theorem c10_add_present_noop {α : Type} [DecidableEq α] (s : Store α)
    (id : α) (h : Hash) (hid : (lookupId s.ids id).isSome = true) :
    addStore s id h = s := by
  rw [addStore, if_pos hid]

/-- A store already holding id 7, for the C10 witness. -/
def wStorePresent : Store Nat :=
  { candidates := [⟨7, [1, 2, 3], 1, (0, 0), 0, (0, 0, 0)⟩],
    ids := [(7, 0)], coefSize := 3, indices := newIndices 4,
    modified := false }

/-- Witness for C10: adding id 7 to a store that has id 7 changes
nothing. -/
theorem c10_add_present_noop_witness :
    (lookupId wStorePresent.ids 7).isSome = true
      ∧ addStore wStorePresent 7 wHash = wStorePresent :=
  ⟨by decide, c10_add_present_noop wStorePresent 7 wHash (by decide)⟩

/-! ### Persistence (store.go GobEncode / GobDecode)

The gob codec and the gzip wrapper are external libraries that round-trip
each primitive value they are given; the encoding is modelled as the
stream of typed values written by `GobEncode`, in order, and `GobDecode`
as a sequential reader of that stream. -/

/-- One value in the gob stream. -/
inductive GV (α : Type) where
  | vint (i : Int)
  | vid (a : α)
  | vcoef (c : Coef)
  | vrat (q : ℚ)
  | vdhash (d : Nat × Nat)
  | vnat (n : Nat)
  | vmax (m : ℚ × ℚ × ℚ)
  | vids (m : List (α × Nat))
  | vind (i : Indices)
  deriving DecidableEq

/-- The six per-candidate `encoder.Encode` calls of GobEncode. -/
def encodeCandidate {α : Type} (c : Candidate α) : List (GV α) :=
  [GV.vid c.id, GV.vcoef c.scaleCoef, GV.vrat c.ratio, GV.vdhash c.dHash,
   GV.vnat c.histogram, GV.vmax c.histoMax]

/-- The per-candidate encoding loop of GobEncode
(`for _, candidate := range store.candidates`). -/
def encodeCandidateList {α : Type} : List (Candidate α) → List (GV α)
  | [] => []
  | c :: cs => encodeCandidate c ++ encodeCandidateList cs

/-- store.go `GobEncode`: version tag (the literal `1` in
`encoder.Encode(1)`), candidate count, the candidates' fields, the id
map, the coefficient size and the index matrix. -/
def encodeStore {α : Type} (s : Store α) : List (GV α) :=
  GV.vint 1 :: GV.vint s.candidates.length
    :: (encodeCandidateList s.candidates
      ++ [GV.vids s.ids, GV.vint s.coefSize, GV.vind s.indices])

/-- The candidate-reading loop of store.go `GobDecode`: reads the six
fields of `size` candidates, failing (`none`) on any malformed stream. -/
def decodeCandidates {α : Type} :
    Nat → List (GV α) → Option (List (Candidate α) × List (GV α))
  | 0, l => some ([], l)
  | size + 1, GV.vid a :: GV.vcoef sc :: GV.vrat r :: GV.vdhash d
      :: GV.vnat hg :: GV.vmax m :: rest =>
      (decodeCandidates size rest).map
        (fun pr => (⟨a, sc, r, d, hg, m⟩ :: pr.1, pr.2))
  | _ + 1, _ => none

/-- The `coefSize` recomputation at the end of GobDecode. -/
def recompCoefSize {α : Type} (cs : List (Candidate α)) : Nat :=
  cs.foldl (fun acc cd => if acc < cd.scaleCoef.length
    then cd.scaleCoef.length else acc) 0

/-- store.go `GobDecode` on receiver `s0`: accept any version, read the
candidate count (negative counts would make `make([]candidate, size)`
panic), the candidates, the id map, the stored coefficient size and the
indices; then recompute `coefSize` as the maximum scaleCoef length.  The
receiver contributes only the fields GobDecode does not assign
(`modified`). -/
def decodeStore {α : Type} (s0 : Store α) (l : List (GV α)) :
    Option (Store α) :=
  match l with
  | GV.vint _version :: GV.vint size :: rest =>
      if 0 ≤ size then
        match decodeCandidates size.toNat rest with
        | some (cands, GV.vids ids :: GV.vint _cz :: GV.vind ind :: _) =>
            some ⟨cands, ids, recompCoefSize cands, ind, s0.modified⟩
        | _ => none
      else none
  | _ => none

lemma decodeCandidates_encode {α : Type} :
    ∀ (cs : List (Candidate α)) (tail : List (GV α)),
    decodeCandidates cs.length (encodeCandidateList cs ++ tail)
      = some (cs, tail)
  | [], tail => rfl
  | c :: cs, tail => by
    rw [List.length_cons, encodeCandidateList, List.append_assoc]
    rw [encodeCandidate, List.cons_append, List.cons_append,
      List.cons_append, List.cons_append, List.cons_append,
      List.cons_append, List.nil_append]
    rw [decodeCandidates, decodeCandidates_encode cs tail]
    rfl

/-- C4: decoding the encoding of any store reconstructs it structurally:
the same candidates in the same order with all six fields equal, the same
id-to-slot map, and the same index buckets with the same elements in the
same order (`coefSize` is recomputed and `modified` is the receiver's,
neither of which the claim constrains). -/
theorem c4_decode_encode_roundtrip {α : Type} (s s0 : Store α) :
    ∃ t : Store α, decodeStore s0 (encodeStore s) = some t
      ∧ t.candidates = s.candidates ∧ t.ids = s.ids
      ∧ t.indices = s.indices := by
  refine ⟨⟨s.candidates, s.ids, recompCoefSize s.candidates, s.indices,
    s0.modified⟩, ?_, rfl, rfl, rfl⟩
  show decodeStore s0 (GV.vint 1 :: GV.vint s.candidates.length
    :: (encodeCandidateList s.candidates
      ++ [GV.vids s.ids, GV.vint s.coefSize, GV.vind s.indices])) = _
  rw [decodeStore]
  rw [if_pos (by omega)]
  rw [show ((s.candidates.length : Int)).toNat = s.candidates.length
    from rfl]
  rw [decodeCandidates_encode]

/-- C8 counterexample: the first value GobEncode writes (ahead of gzip
compression) is the version tag 1 — `encoder.Encode(1)` — not 3. -/
theorem c8_counterexample :
    (encodeStore (newStore Nat 2)).head? = some (GV.vint 1)
      ∧ (GV.vint 1 : GV Nat) ≠ GV.vint 3 :=
  ⟨rfl, by decide⟩

/-- C8 (amended): for every store, the persistence encoder writes the
version tag 1 as the first value of the encoding. -/
theorem c8_version_tag {α : Type} (s : Store α) :
    (encodeStore s).head? = some (GV.vint 1) := rfl

/-! ### Query scoring (store.go Query) -/

/-- store.go `weights`: the YIQ-derived score weights.  Written as exact
rationals: `mkRat 83 100 = 0.83` and so on. -/
def weights : List (List ℚ) :=
  [[5, mkRat 83 100, mkRat 101 100, mkRat 52 100, mkRat 47 100,
    mkRat 30 100],
   [mkRat 1921 100, mkRat 126 100, mkRat 44 100, mkRat 53 100,
    mkRat 28 100, mkRat 14 100],
   [mkRat 3437 100, mkRat 36 100, mkRat 45 100, mkRat 14 100,
    mkRat 18 100, mkRat 27 100]]

/-- The weight-subtraction loop run for one bucket hit in store.go Query
(lines 525–536): `y := coefIndex / width`, `x := coefIndex % height`,
then for every colour, clamp `bin = max(x, y)` to 5 and subtract
`weights[colour][bin]` from the score. -/
def querySubtractWeights (width height coefIndex chans : Nat)
    (score : ℚ) : ℚ :=
  let y := coefIndex / width
  let x := coefIndex % height
  (List.range chans).foldl (fun sc colour =>
    sc - (weights.getD colour []).getD
      (if (if x > y then x else y) > 5 then 5
       else (if x > y then x else y)) 0) score

/-- Modelled from the spec:
`weightSums[bin] = W[Y][bin] + W[Cb][bin] + W[Cr][bin]`. -/
def weightSums (bin : Nat) : ℚ :=
  (weights.getD 0 []).getD bin 0 + (weights.getD 1 []).getD bin 0
    + (weights.getD 2 []).getD bin 0

/-- C3: for a hash whose matrix width and height both equal S (as
CreateHash produces), each bucket hit decreases the hit candidate's score
by exactly `weightSums[bin]`, once per (position, channel) bucket hit
regardless of channel, with `bin = max(p / S, p mod S)` clamped to 5. -/
theorem c3_query_hit_decrement (S p : Nat) (score : ℚ) (_hS : 0 < S) :
    querySubtractWeights S S p 3 score
      = score - weightSums (min (max (p / S) (p % S)) 5) := by
  have hbin : (if (if p % S > p / S then p % S else p / S) > 5 then 5
      else (if p % S > p / S then p % S else p / S))
      = min (max (p / S) (p % S)) 5 := by
    rw [Nat.max_def, Nat.min_def]
    split_ifs <;> omega
  rw [querySubtractWeights]
  show (List.range 3).foldl _ score = _
  rw [show List.range 3 = [0, 1, 2] from rfl, List.foldl_cons,
    List.foldl_cons, List.foldl_cons, List.foldl_nil, hbin, weightSums]
  ring

/-- Witness for C3: with S = 50 and hit position 137 (row 2, column 37,
so bin clamps to 5), one bucket hit subtracts `weightSums 5 = 0.71`. -/
theorem c3_query_hit_decrement_witness :
    querySubtractWeights 50 50 137 3 0 = 0 - weightSums 5 := by
  rw [c3_query_hit_decrement 50 137 0 (by norm_num),
    show min (max (137 / 50) (137 % 50)) 5 = 5 by omega]

/-! ### The histogram fingerprint (hash.go histogram) -/

/-- One pixel's YCbCr bytes; components are reduced mod 256 at use, the
way Go's uint8 values are already reduced. -/
abbrev Pixel := Nat × Nat × Nat

/-- The histogram-filling loop of hash.go `histogram`: one flat 64-slot
counter array, `h[y>>3]++`, `h[32+cb>>4]++`, `h[48+cr>>4]++` for every
pixel. -/
def histCounts (px : List Pixel) : List Nat :=
  px.foldl (fun h p =>
    updAt (updAt (updAt h ((p.1 % 256) >>> 3) (· + 1))
        (32 + ((p.2.1 % 256) >>> 4)) (· + 1))
      (48 + ((p.2.2 % 256) >>> 4)) (· + 1))
    (List.replicate 64 0)

/-- hash.go's `median` helper: sort ascending, take element `len/2`
(the bits part; the maximum part feeds HistoMax, not Histogram). -/
def medianOf (v : List Nat) : Nat :=
  (v.insertionSort (· ≤ ·)).getD (v.length / 2) 0

/-- `median(h[:32])`. -/
def yMedian (px : List Pixel) : Nat := medianOf ((histCounts px).take 32)

/-- `median(h[32:48])`. -/
def cbMedian (px : List Pixel) : Nat :=
  medianOf (((histCounts px).drop 32).take 16)

/-- `median(h[48:])`. -/
def crMedian (px : List Pixel) : Nat := medianOf ((histCounts px).drop 48)

/-- The Y histogram bin counts (`h[j]` for `j < 32`). -/
def yBinCount (px : List Pixel) (j : Nat) : Nat := (histCounts px).getD j 0

/-- The Cb histogram bin counts (`h[32+j]` for `j < 16`). -/
def cbBinCount (px : List Pixel) (j : Nat) : Nat :=
  (histCounts px).getD (32 + j) 0

/-- The Cr histogram bin counts (`h[48+j]` for `j < 16`). -/
def crBinCount (px : List Pixel) (j : Nat) : Nat :=
  (histCounts px).getD (48 + j) 0

/-- The quantization step of hash.go `histogram`: for counter `index`,
set a bit when the count exceeds the channel's median — at bit `index`
for Y, and at bit `index − 32` for both Cb (giving 0–15) and Cr (giving
16–31). -/
def histQuantizeStep (my mcb mcr : Nat) (bits : Nat) (iv : Nat × Nat) :
    Nat :=
  if iv.1 < 32 then
    (if iv.2 > my then bits ||| (1 <<< iv.1) else bits)
  else if iv.1 < 48 then
    (if iv.2 > mcb then bits ||| (1 <<< (iv.1 - 32)) else bits)
  else
    (if iv.2 > mcr then bits ||| (1 <<< (iv.1 - 32)) else bits)

/-- hash.go `histogram`, bits part: quantize the 64 counters against the
three medians. -/
def histogramBits (px : List Pixel) : Nat :=
  (histCounts px).enum.foldl
    (histQuantizeStep (yMedian px) (cbMedian px) (crMedian px)) 0

/-- Where the quantization step sets a bit: Y counters set their own
index, Cb and Cr counters both set index − 32. -/
def histHit (my mcb mcr : Nat) (iv : Nat × Nat) (j : Nat) : Prop :=
  (iv.1 < 32 ∧ iv.2 > my ∧ iv.1 = j)
  ∨ (¬(iv.1 < 32) ∧ iv.1 < 48 ∧ iv.2 > mcb ∧ iv.1 - 32 = j)
  ∨ (¬(iv.1 < 32) ∧ ¬(iv.1 < 48) ∧ iv.2 > mcr ∧ iv.1 - 32 = j)

lemma testBit_histQuantizeStep (my mcb mcr bits : Nat) (iv : Nat × Nat)
    (j : Nat) :
    Nat.testBit (histQuantizeStep my mcb mcr bits iv) j = true
      ↔ (Nat.testBit bits j = true ∨ histHit my mcb mcr iv j) := by
  rw [histQuantizeStep, histHit]
  split_ifs with h1 h2 h3 h4 h5 <;>
    simp [Nat.testBit_or, Nat.one_shiftLeft, Nat.testBit_two_pow, h1, *]

lemma testBit_histFold (my mcb mcr : Nat) :
    ∀ (l : List (Nat × Nat)) (acc j : Nat),
    Nat.testBit (l.foldl (histQuantizeStep my mcb mcr) acc) j = true
      ↔ (Nat.testBit acc j = true ∨ ∃ iv ∈ l, histHit my mcb mcr iv j)
  | [], acc, j => by simp
  | iv0 :: l, acc, j => by
    rw [List.foldl_cons, testBit_histFold my mcb mcr l _ j,
      testBit_histQuantizeStep]
    simp only [List.mem_cons]
    constructor
    · rintro ((h | h) | ⟨iv, hm, hh⟩)
      · exact Or.inl h
      · exact Or.inr ⟨iv0, Or.inl rfl, h⟩
      · exact Or.inr ⟨iv, Or.inr hm, hh⟩
    · rintro (h | ⟨iv, (rfl | hm), hh⟩)
      · exact Or.inl (Or.inl h)
      · exact Or.inl (Or.inr hh)
      · exact Or.inr ⟨iv, hm, hh⟩

lemma histCounts_length (px : List Pixel) : (histCounts px).length = 64 := by
  rw [histCounts]
  have : ∀ (l : List Pixel) (h : List Nat), h.length = 64 →
      (l.foldl (fun h p =>
        updAt (updAt (updAt h ((p.1 % 256) >>> 3) (· + 1))
            (32 + ((p.2.1 % 256) >>> 4)) (· + 1))
          (48 + ((p.2.2 % 256) >>> 4)) (· + 1)) h).length = 64 := by
    intro l
    induction l with
    | nil => intro h hh; exact hh
    | cons p l ih =>
      intro h hh
      rw [List.foldl_cons]
      exact ih _ (by rw [updAt_length, updAt_length, updAt_length]; exact hh)
  exact this px _ (by simp)

/-- C6 counterexample: on the one-pixel image with YCbCr = (0,0,0), the
Cb bin 0 and Cr bin 0 counts both exceed their channel medians, yet bits
32 and 48 of the histogram fingerprint are clear — the Cb bit lands at
position 0 and the Cr bit at position 16 (`1 << (index − 32)` for both
regions), overlapping the Y field instead of following it. -/
theorem c6_counterexample :
    cbBinCount [(0, 0, 0)] 0 > cbMedian [(0, 0, 0)]
      ∧ Nat.testBit (histogramBits [(0, 0, 0)]) 32 = false
      ∧ crBinCount [(0, 0, 0)] 0 > crMedian [(0, 0, 0)]
      ∧ Nat.testBit (histogramBits [(0, 0, 0)]) 48 = false
      ∧ Nat.testBit (histogramBits [(0, 0, 0)]) 16 = true
      ∧ histogramBits [(0, 0, 0)] = 65537 := by
  refine ⟨by decide, by decide, by decide, by decide, by decide, by decide⟩

/-- C6 (amended): bit `j` of the 64-bit histogram fingerprint is set iff
`j < 32` and either Y-bin `j`'s count exceeds the Y median, or `j < 16`
and Cb-bin `j`'s count exceeds the Cb median, or `16 ≤ j` and Cr-bin
`j − 16`'s count exceeds the Cr median; bits 32–63 are always clear (the
Cb and Cr fields overlay the low 32 bits at offsets 0 and 16 instead of
32 and 48). -/
theorem c6_histogram_bit_layout (px : List Pixel) (j : Nat) :
    Nat.testBit (histogramBits px) j = true
      ↔ (j < 32 ∧ (yBinCount px j > yMedian px
          ∨ (j < 16 ∧ cbBinCount px j > cbMedian px)
          ∨ (16 ≤ j ∧ crBinCount px (j - 16) > crMedian px))) := by
  have hlen := histCounts_length px
  rw [histogramBits, testBit_histFold]
  simp only [Nat.zero_testBit, Bool.false_eq_true, false_or]
  constructor
  · rintro ⟨iv, hm, hh⟩
    have hb := List.mem_enum_iff_getElem?.mp hm
    rw [List.getElem?_eq_some] at hb
    obtain ⟨hilt, hval⟩ := hb
    rcases hh with ⟨h32, hcnt, rfl⟩ | ⟨h32, h48, hcnt, hj⟩
      | ⟨h32, h48, hcnt, hj⟩
    · refine ⟨h32, Or.inl ?_⟩
      rw [yBinCount, List.getD_eq_getElem _ _ (by omega), hval]
      exact hcnt
    · subst hj
      refine ⟨by omega, Or.inr (Or.inl ⟨by omega, ?_⟩)⟩
      rw [cbBinCount, List.getD_eq_getElem _ _ (by omega)]
      simp only [show 32 + (iv.1 - 32) = iv.1 from by omega, hval]
      exact hcnt
    · subst hj
      refine ⟨by omega, Or.inr (Or.inr ⟨by omega, ?_⟩)⟩
      rw [crBinCount, List.getD_eq_getElem _ _ (by omega)]
      simp only [show 48 + (iv.1 - 32 - 16) = iv.1 from by omega, hval]
      exact hcnt
  · rintro ⟨hj32, hy | ⟨hj16, hcb⟩ | ⟨hj16, hcr⟩⟩
    · refine ⟨(j, (histCounts px).get ⟨j, by omega⟩), ?_,
        Or.inl ⟨hj32, ?_, rfl⟩⟩
      · rw [List.mem_enum_iff_getElem?]
        exact List.getElem?_eq_getElem (by omega)
      · rw [yBinCount, List.getD_eq_getElem _ _ (by omega)] at hy
        exact hy
    · refine ⟨(32 + j, (histCounts px).get ⟨32 + j, by omega⟩), ?_,
        Or.inr (Or.inl ⟨by omega, by omega, ?_, by omega⟩)⟩
      · rw [List.mem_enum_iff_getElem?]
        exact List.getElem?_eq_getElem (by omega)
      · rw [cbBinCount, List.getD_eq_getElem _ _ (by omega)] at hcb
        exact hcb
    · refine ⟨(32 + j, (histCounts px).get ⟨32 + j, by omega⟩), ?_,
        Or.inr (Or.inr ⟨by omega, by omega, ?_, by omega⟩)⟩
      · rw [List.mem_enum_iff_getElem?]
        exact List.getElem?_eq_getElem (by omega)
      · rw [crBinCount, List.getD_eq_getElem _ _ (by omega)] at hcr
        simp only [show 48 + (j - 16) = 32 + j from by omega] at hcr
        exact hcr

/-! ### The dHash fingerprint (hash.go dHash)

The 8×8 bicubic downscale is external; `px x y` is the scaled image's
YCbCr pixel at (x, y), with each component reduced mod 256 at use the
way Go's uint8 values are. -/

/-- The dHash scanning state: the two bit lanes and the three
bit-position counters `yPos`, `cbPos`, `crPos`. -/
structure DState where
  bits0 : Nat
  bits1 : Nat
  yPos : Nat
  cbPos : Nat
  crPos : Nat

/-- `bits[0] |= 1 << yPos; yPos++`. -/
def setY (st : DState) : DState :=
  { st with bits0 := st.bits0 ||| (1 <<< st.yPos), yPos := st.yPos + 1 }

/-- `bits[1] |= 1 << cbPos; cbPos++`. -/
def setCb (st : DState) : DState :=
  { st with bits1 := st.bits1 ||| (1 <<< st.cbPos), cbPos := st.cbPos + 1 }

/-- `bits[1] |= 1 << crPos; crPos++`. -/
def setCr (st : DState) : DState :=
  { st with bits1 := st.bits1 ||| (1 <<< st.crPos), crPos := st.crPos + 1 }

/-- The body of the dHash double loop (hash.go dHash) for scan position
(y, x): on the first column compare against the rough colour value
(`& 0x80`), elsewhere against the left neighbour; Cb and Cr bits are
produced only on even rows from the vertical two-pixel averages. -/
def dHashStep (px : Nat → Nat → Pixel) (st : DState) (yx : Nat × Nat) :
    DState :=
  let y := yx.1
  let x := yx.2
  let yTR := (px x y).1 % 256
  let cbTR := (px x y).2.1 % 256
  let crTR := (px x y).2.2 % 256
  if x = 0 then
    let st1 := if yTR &&& 128 > 0 then setY st else st
    if y % 2 = 0 then
      let cbBR := (px x (y + 1)).2.1 % 256
      let crBR := (px x (y + 1)).2.2 % 256
      let st2 := if ((cbBR + cbTR) % 256) >>> 1 &&& 128 > 0 then setCb st1
        else st1
      if ((crBR + crTR) % 256) >>> 1 &&& 128 > 0 then setCr st2 else st2
    else st1
  else
    let yTL := (px (x - 1) y).1 % 256
    let cbTL := (px (x - 1) y).2.1 % 256
    let crTL := (px (x - 1) y).2.2 % 256
    let st1 := if yTR > yTL then setY st else st
    if y % 2 = 0 then
      let cbBR := (px x (y + 1)).2.1 % 256
      let crBR := (px x (y + 1)).2.2 % 256
      let cbBL := (px (x - 1) (y + 1)).2.1 % 256
      let crBL := (px (x - 1) (y + 1)).2.2 % 256
      let st2 := if ((cbBR + cbTR) % 256) >>> 1 > ((cbBL + cbTL) % 256) >>> 1
        then setCb st1 else st1
      if ((crBR + crTR) % 256) >>> 1 > ((crBL + crTL) % 256) >>> 1
        then setCr st2 else st2
    else st1

/-- The scan order of the dHash double loop: rows y = 0..7, columns
x = 0..7. -/
def dHashPairs : List (Nat × Nat) :=
  (List.range 8).flatMap (fun y => (List.range 8).map (fun x => (y, x)))

/-- hash.go `dHash`: fold the step over the scan order, starting from
zero lanes with `yPos = 0`, `cbPos = 0`, `crPos = 32`. -/
def dHash (px : Nat → Nat → Pixel) : Nat × Nat :=
  ((dHashPairs.foldl (dHashStep px) ⟨0, 0, 0, 0, 32⟩).bits0,
   (dHashPairs.foldl (dHashStep px) ⟨0, 0, 0, 0, 32⟩).bits1)

/-! Bit algebra for the contiguity invariant. -/

lemma pow_sub_one_or_pow (n : Nat) :
    (2 ^ n - 1) ||| 2 ^ n = 2 ^ (n + 1) - 1 := by
  apply Nat.eq_of_testBit_eq
  intro i
  simp only [Nat.testBit_or, Nat.testBit_two_pow,
    Nat.testBit_two_pow_sub_one]
  rcases lt_trichotomy i n with h | h | h
  · simp [h, show i < n + 1 by omega, show n ≠ i by omega]
  · simp [h, show n < n + 1 by omega]
  · simp [show ¬i < n by omega, show ¬i < n + 1 by omega,
      show n ≠ i by omega]

lemma or_pow_mid (X n : Nat) :
    ((2 ^ n - 1) ||| X) ||| 2 ^ n = (2 ^ (n + 1) - 1) ||| X := by
  apply Nat.eq_of_testBit_eq
  intro i
  simp only [Nat.testBit_or, Nat.testBit_two_pow,
    Nat.testBit_two_pow_sub_one]
  rcases lt_trichotomy i n with h | h | h
  · simp [h, show i < n + 1 by omega]
  · simp [h, show n < n + 1 by omega]
  · simp [show ¬i < n by omega, show ¬i < n + 1 by omega,
      show n ≠ i by omega]

lemma or_pow_high (X k : Nat) :
    (X ||| ((2 ^ k - 1) <<< 32)) ||| 2 ^ (32 + k)
      = X ||| ((2 ^ (k + 1) - 1) <<< 32) := by
  apply Nat.eq_of_testBit_eq
  intro i
  simp only [Nat.testBit_or, Nat.testBit_shiftLeft, Nat.testBit_two_pow,
    Nat.testBit_two_pow_sub_one, ge_iff_le]
  by_cases h32 : 32 ≤ i
  · by_cases hk : i - 32 < k
    · simp [h32, hk, show i - 32 < k + 1 by omega]
    · by_cases he : i - 32 = k
      · simp [h32, hk, he, show 32 + k = i by omega,
          show i - 32 < k + 1 by omega]
      · simp [h32, hk, show ¬(i - 32 < k + 1) by omega,
          show 32 + k ≠ i by omega]
  · simp [h32, show 32 + k ≠ i by omega]

/-- The contiguity invariant: lane 0 is `yPos` low ones; lane 1 is
`cbPos` low ones together with `crPos − 32` ones shifted to bit 32. -/
def dInv (st : DState) : Prop :=
  st.bits0 = 2 ^ st.yPos - 1 ∧ 32 ≤ st.crPos
    ∧ st.bits1 = (2 ^ st.cbPos - 1) ||| ((2 ^ (st.crPos - 32) - 1) <<< 32)

lemma dInv_setY {st : DState} (h : dInv st) : dInv (setY st) := by
  obtain ⟨h0, hcr, h1⟩ := h
  exact ⟨by rw [setY]; simpa [Nat.one_shiftLeft, h0] using
      pow_sub_one_or_pow st.yPos,
    hcr, by rw [setY]; exact h1⟩

lemma dInv_setCb {st : DState} (h : dInv st) : dInv (setCb st) := by
  obtain ⟨h0, hcr, h1⟩ := h
  refine ⟨h0, hcr, ?_⟩
  rw [setCb]
  show st.bits1 ||| 1 <<< st.cbPos = _
  rw [h1, Nat.one_shiftLeft, or_pow_mid]

lemma dInv_setCr {st : DState} (h : dInv st) : dInv (setCr st) := by
  obtain ⟨h0, hcr, h1⟩ := h
  refine ⟨h0, ?_, ?_⟩
  · show 32 ≤ st.crPos + 1
    omega
  · show st.bits1 ||| 1 <<< st.crPos
      = (2 ^ st.cbPos - 1) ||| ((2 ^ (st.crPos + 1 - 32) - 1) <<< 32)
    have hk : st.crPos + 1 - 32 = (st.crPos - 32) + 1 := by omega
    have hp : (1 : Nat) <<< st.crPos = 2 ^ (32 + (st.crPos - 32)) := by
      rw [Nat.one_shiftLeft]
      congr 1
      omega
    rw [h1, hp, hk, or_pow_high]

lemma dHashStep_inv (px : Nat → Nat → Pixel) (st : DState)
    (yx : Nat × Nat) (h : dInv st) :
    dInv (dHashStep px st yx)
    ∧ (dHashStep px st yx).yPos ≤ st.yPos + 1
    ∧ (dHashStep px st yx).cbPos
        ≤ st.cbPos + (if yx.1 % 2 = 0 then 1 else 0)
    ∧ (dHashStep px st yx).crPos
        ≤ st.crPos + (if yx.1 % 2 = 0 then 1 else 0) := by
  simp only [dHashStep]
  split_ifs <;>
    refine ⟨?_, ?_, ?_, ?_⟩ <;>
    first
      | solve_by_elim [dInv_setY, dInv_setCb, dInv_setCr]
      | (simp [setY, setCb, setCr])

lemma dHashFold_inv (px : Nat → Nat → Pixel) :
    ∀ (l : List (Nat × Nat)) (st : DState), dInv st →
    dInv (l.foldl (dHashStep px) st)
    ∧ (l.foldl (dHashStep px) st).yPos ≤ st.yPos + l.length
    ∧ (l.foldl (dHashStep px) st).cbPos
        ≤ st.cbPos + l.countP (fun yx => yx.1 % 2 = 0)
    ∧ (l.foldl (dHashStep px) st).crPos
        ≤ st.crPos + l.countP (fun yx => yx.1 % 2 = 0)
  | [], st, h => ⟨h, by simp, by simp, by simp⟩
  | yx :: l, st, h => by
    rw [List.foldl_cons]
    obtain ⟨h1, h2, h3, h4⟩ := dHashStep_inv px st yx h
    obtain ⟨g1, g2, g3, g4⟩ := dHashFold_inv px l _ h1
    refine ⟨g1, ?_, ?_, ?_⟩
    · simp only [List.length_cons]
      omega
    · rw [List.countP_cons]
      by_cases hp : yx.1 % 2 = 0 <;> simp [hp] at h3 ⊢ <;> omega
    · rw [List.countP_cons]
      by_cases hp : yx.1 % 2 = 0 <;> simp [hp] at h4 ⊢ <;> omega

/-- C7: because each dHash bit-position counter advances only when a 1
bit is written, the set bits of every lane region are contiguous from the
region's start: lane 0 is `2^a − 1` for some `a ≤ 64`, and lane 1 is
`(2^b − 1) ||| ((2^c − 1) <<< 32)` for some `b ≤ 32` and `c ≤ 32` (Cb
bits from position 0, Cr bits from position 32). -/
theorem c7_dhash_contiguous (px : Nat → Nat → Pixel) :
    ∃ a b c, a ≤ 64 ∧ b ≤ 32 ∧ c ≤ 32
      ∧ (dHash px).1 = 2 ^ a - 1
      ∧ (dHash px).2 = (2 ^ b - 1) ||| ((2 ^ c - 1) <<< 32) := by
  have hinit : dInv ⟨0, 0, 0, 0, 32⟩ := by
    refine ⟨by decide, by decide, by decide⟩
  obtain ⟨⟨hb0, hcr, hb1⟩, hy, hcb, hcrb⟩ :=
    dHashFold_inv px dHashPairs ⟨0, 0, 0, 0, 32⟩ hinit
  rw [show dHashPairs.length = 64 from by decide] at hy
  rw [show dHashPairs.countP (fun yx => yx.1 % 2 = 0) = 32 from by decide]
    at hcb hcrb
  simp only [show (⟨0, 0, 0, 0, 32⟩ : DState).yPos = 0 from rfl,
    show (⟨0, 0, 0, 0, 32⟩ : DState).cbPos = 0 from rfl,
    show (⟨0, 0, 0, 0, 32⟩ : DState).crPos = 32 from rfl] at hy hcb hcrb
  exact ⟨(dHashPairs.foldl (dHashStep px) ⟨0, 0, 0, 0, 32⟩).yPos,
    (dHashPairs.foldl (dHashStep px) ⟨0, 0, 0, 0, 32⟩).cbPos,
    (dHashPairs.foldl (dHashStep px) ⟨0, 0, 0, 0, 32⟩).crPos - 32,
    by omega, by omega, by omega, hb0, hb1⟩

/-! ### The 2D Haar transform (haar/haar.go Transform)

The transform's values live in ℚ(√2): a coefficient component is a pair
`(a, b)` denoting `a + b·√2`.  `Divide(math.Sqrt2)` — multiplication by
`1/√2` — is exact division by √2 in this field:
`(a + b√2)/√2 = b + (a/2)√2`. -/

/-- An element `a + b·√2` of ℚ(√2). -/
abbrev Q2 := ℚ × ℚ

def q2Add (a b : Q2) : Q2 := (a.1 + b.1, a.2 + b.2)

def q2Sub (a b : Q2) : Q2 := (a.1 - b.1, a.2 - b.2)

/-- Division by √2 in ℚ(√2). -/
def q2DivSqrt2 (a : Q2) : Q2 := (a.2, a.1 / 2)

/-- The real number denoted by a ℚ(√2) element. -/
noncomputable def q2ToReal (a : Q2) : ℝ := a.1 + a.2 * Real.sqrt 2

lemma q2Add_toReal (a b : Q2) :
    q2ToReal (q2Add a b) = q2ToReal a + q2ToReal b := by
  rw [q2Add, q2ToReal, q2ToReal, q2ToReal]
  push_cast
  ring

lemma q2Sub_toReal (a b : Q2) :
    q2ToReal (q2Sub a b) = q2ToReal a - q2ToReal b := by
  rw [q2Sub, q2ToReal, q2ToReal, q2ToReal]
  push_cast
  ring

lemma q2DivSqrt2_toReal (a : Q2) :
    q2ToReal (q2DivSqrt2 a) = q2ToReal a / Real.sqrt 2 := by
  have h2 : Real.sqrt 2 * Real.sqrt 2 = 2 :=
    Real.mul_self_sqrt (by norm_num)
  have hne : Real.sqrt 2 ≠ 0 := by
    intro h
    rw [h] at h2
    norm_num at h2
  rw [q2DivSqrt2, q2ToReal, q2ToReal, eq_div_iff hne]
  show ((a.2 : ℝ) + ((a.1 / 2 : ℚ) : ℝ) * Real.sqrt 2) * Real.sqrt 2 = _
  push_cast
  calc ((a.2 : ℝ) + (a.1 : ℝ) / 2 * Real.sqrt 2) * Real.sqrt 2
      = (a.2 : ℝ) * Real.sqrt 2
        + (a.1 : ℝ) / 2 * (Real.sqrt 2 * Real.sqrt 2) := by ring
    _ = (a.2 : ℝ) * Real.sqrt 2 + (a.1 : ℝ) / 2 * 2 := by rw [h2]
    _ = (a.1 : ℝ) + (a.2 : ℝ) * Real.sqrt 2 := by ring

/-- haar.go `Coef.Add` (the channels of both operands walk together). -/
def coefAdd (c o : List Q2) : List Q2 := List.zipWith q2Add c o

/-- haar.go `Coef.Subtract`. -/
def coefSub (c o : List Q2) : List Q2 := List.zipWith q2Sub c o

/-- haar.go `Coef.Divide(math.Sqrt2)`. -/
def coefDivSqrt2 (c : List Q2) : List Q2 := c.map q2DivSqrt2

/-- The step sequence of the Haar loops:
`for step := d/2; step >= 1; step /= 2` (fuel-indexed, `d` fuel is ample
since the start value `d/2` halves to 0). -/
def stepSeq : Nat → Nat → List Nat
  | 0, _ => []
  | _ + 1, 0 => []
  | fuel + 1, s + 1 => (s + 1) :: stepSeq fuel ((s + 1) / 2)

/-- The steps walked for a dimension `d`. -/
def haarSteps (d : Nat) : List Nat := stepSeq d (d / 2)

/-- The result matrix of the transform: flat row-major coefficients, as
haar.Matrix. -/
structure HaarMatrix where
  coefs : List (List Q2)
  width : Nat
  height : Nat

/-- One step of the row pass of haar.go Transform, acting on the pair
(matrix, tempRow): pair up columns `2c, 2c+1`, write the normalized sum
and difference into `temp[c]` and `temp[c+step]`, then copy
`temp[0..width)` back into the row.  The temp buffer is carried along —
it is allocated once and reused, exactly as in the source. -/
def rowStep (width row : Nat) (mt : List (List Q2) × List (List Q2))
    (step : Nat) : List (List Q2) × List (List Q2) :=
  let m := mt.1
  let temp := (List.range step).foldl (fun t column =>
      let high := m.getD (row * width + 2 * column) []
      let low := high
      let offset := m.getD (row * width + 2 * column + 1) []
      updAt (updAt t column
          (fun _ => coefDivSqrt2 (coefAdd high offset)))
        (column + step) (fun _ => coefDivSqrt2 (coefSub low offset))) mt.2
  ((List.range width).foldl (fun mm column =>
      updAt mm (row * width + column) (fun _ => temp.getD column [])) m,
   temp)

/-- The row pass: every row, steps `width/2, width/4, …, 1`, one shared
temp buffer `make([]Coef, width)`. -/
def transformRows (width height : Nat) (m : List (List Q2)) :
    List (List Q2) :=
  ((List.range height).foldl (fun mt row =>
      (haarSteps width).foldl (rowStep width row) mt)
    (m, List.replicate width [])).1

/-- One step of the column pass of haar.go Transform (rows `2r, 2r+1` of
one column). -/
def colStep (width height column : Nat)
    (mt : List (List Q2) × List (List Q2)) (step : Nat) :
    List (List Q2) × List (List Q2) :=
  let m := mt.1
  let temp := (List.range step).foldl (fun t row =>
      let high := m.getD ((2 * row) * width + column) []
      let low := high
      let offset := m.getD ((2 * row + 1) * width + column) []
      updAt (updAt t row
          (fun _ => coefDivSqrt2 (coefAdd high offset)))
        (row + step) (fun _ => coefDivSqrt2 (coefSub low offset))) mt.2
  ((List.range height).foldl (fun mm row =>
      updAt mm (row * width + column) (fun _ => temp.getD row [])) m,
   temp)

/-- The column pass: every column, steps `height/2, …, 1`, one shared
temp buffer `make([]Coef, height)`. -/
def transformCols (width height : Nat) (m : List (List Q2)) :
    List (List Q2) :=
  ((List.range width).foldl (fun mt column =>
      (haarSteps height).foldl (colStep width height column) mt)
    (m, List.replicate height [])).1

/-- haar.go `Transform`: clip odd dimensions above 2, lay the pixel
coefficients out row-major, run the row pass then the column pass. -/
def haarTransform (w h : Nat) (pix : Nat → Nat → List Q2) : HaarMatrix :=
  let width := clipDim w
  let height := clipDim h
  let m0 := (List.range (width * height)).map
    (fun i => pix (i % width) (i / width))
  ⟨transformCols width height (transformRows width height m0),
   width, height⟩

/-- Spec scenario S2: a one-row image of four gray pixels [4, 2, 5, 5]
(gray pixels convert to single-channel coefficients). -/
def s2Pix (x _y : Nat) : List Q2 := [(([4, 2, 5, 5].getD x 0 : ℚ), 0)]

/-- C9: the Haar transform of the one-row four-pixel image [4, 2, 5, 5]
is a width-4, height-1 matrix with per-channel coefficients
[8, −2, 2/√2, 0] (rows first, pairwise sum/difference divided by √2). -/
theorem c9_haar_single_row :
    (haarTransform 4 1 s2Pix).width = 4
      ∧ (haarTransform 4 1 s2Pix).height = 1
      ∧ (haarTransform 4 1 s2Pix).coefs.map (fun c => c.map q2ToReal)
          = [[8], [-2], [2 / Real.sqrt 2], [0]] := by
  refine ⟨rfl, rfl, ?_⟩
  have hc : (haarTransform 4 1 s2Pix).coefs
      = [[((8 : ℚ), (0 : ℚ))], [(-2, 0)], [(0, 1)], [(0, 0)]] := by
    norm_num [haarTransform, transformRows, transformCols, rowStep,
      colStep, haarSteps, stepSeq, clipDim, coefAdd, coefSub,
      coefDivSqrt2, q2Add, q2Sub, q2DivSqrt2, updAt, s2Pix,
      List.range_succ, List.range_zero, List.foldl_cons, List.foldl_nil]
  rw [hc, show (2 : ℝ) / Real.sqrt 2 = Real.sqrt 2 from Real.div_sqrt]
  norm_num [q2ToReal]

end Duplo
